import Mathlib

/-!
Verification of the seed-execution engine of the `rocket-anchor` repository
(`src/seeder.ts`): placeholder resolution, program-derived-address (PDA)
derivation, call execution (signer collection, post-confirmation event
extraction) and the seed sequencer (`seedProgram`, `runSeeds`).

The embedding is shallow: JavaScript dynamic values become an inductive
`JsonVal`; the external chain library (`@solana/web3.js` address parsing and
`findProgramAddressSync`) is a parameter record `ChainEnv`; the ambient
randomness of `Keypair.generate()` is a fresh-key supply threaded as a `Nat`
counter; `async`/`await` failure propagation becomes `Except`.
-/

/-- A public key / address in canonical binary form (`PublicKey.toBuffer()`),
modelled as a byte list. -/
abbrev Addr := List Nat

/-- The public half of the `n`-th keypair produced by `Keypair.generate()`
in one run (the fresh-key supply is modelled by a counter). -/
def genPubkey (n : Nat) : Addr := [n]

/-- UTF-8 bytes of a string (`Buffer.from(s)`), modelled as code points. -/
def strBytes (s : List Char) : Addr := s.map Char.toNat

/-- External chain-library capabilities consumed by the seeder
(the spec treats these as provided by the underlying chain client). -/
structure ChainEnv where
  /-- `new PublicKey(s)` on a string: `some` address, or `none` when the
  constructor throws (so `isValidPublicKey s` is `(parsePubkey s).isSome`). -/
  parsePubkey : String → Option Addr
  /-- `PublicKey.findProgramAddressSync(seeds, programId)` (first component). -/
  findProgramAddress : List Addr → Addr → Addr
  /-- `provider.wallet.publicKey`: the caller's public identity. -/
  walletPubkey : Addr
  /-- `SystemProgram.programId`. -/
  systemProgramId : Addr
  /-- `SYSVAR_RENT_PUBKEY`. -/
  rentSysvar : Addr

/-- The characters of the tag `"pda:"`. -/
def pdaTag : List Char := ['p', 'd', 'a', ':']

/-- The characters of the literal `"signer"`. -/
def signerChars : List Char := ['s', 'i', 'g', 'n', 'e', 'r']

/-- `str.replace(/^pda:/, "")`: remove one leading `pda:` tag if present. -/
def stripPda (s : List Char) : List Char :=
  if pdaTag.isPrefixOf s then s.drop 4 else s

/-- `newStr.split(',')` on character lists. -/
def splitOnComma : List Char → List (List Char)
  | [] => [[]]
  | c :: rest =>
    let r := splitOnComma rest
    if c = ',' then [] :: r
    else
      match r with
      | [] => [[c]]
      | h :: t => (c :: h) :: t

theorem splitOnComma_ne_nil (s : List Char) : splitOnComma s ≠ [] := by
  induction s with
  | nil => simp [splitOnComma]
  | cons c rest ih =>
    simp only [splitOnComma]
    split
    · simp
    · match h : splitOnComma rest with
      | [] => exact absurd h ih
      | x :: xs => simp

theorem length_le_of_mem_splitOnComma {s : List Char} {t : List Char}
    (ht : t ∈ splitOnComma s) : t.length ≤ s.length := by
  induction s generalizing t with
  | nil =>
    simp [splitOnComma] at ht
    simp [ht]
  | cons c rest ih =>
    simp only [splitOnComma] at ht
    split at ht
    · rcases List.mem_cons.mp ht with h | h
      · simp [h]
      · exact Nat.le_succ_of_le (ih h)
    · revert ht
      match h : splitOnComma rest with
      | [] => exact absurd h (splitOnComma_ne_nil rest)
      | x :: xs =>
        intro ht
        rcases List.mem_cons.mp ht with h2 | h2
        · subst h2
          have : x ∈ splitOnComma rest := by rw [h]; exact List.mem_cons_self _ _
          simpa using Nat.succ_le_succ (ih this)
        · have : t ∈ splitOnComma rest := by rw [h]; exact List.mem_cons_of_mem _ h2
          exact Nat.le_succ_of_le (ih this)

theorem eq_or_lt_of_mem_splitOnComma {s : List Char} {t : List Char}
    (ht : t ∈ splitOnComma s) : t = s ∨ t.length < s.length := by
  induction s generalizing t with
  | nil =>
    simp [splitOnComma] at ht
    simp [ht]
  | cons c rest ih =>
    simp only [splitOnComma] at ht
    split at ht
    · rcases List.mem_cons.mp ht with h | h
      · right; simp [h]
      · right
        exact Nat.lt_succ_of_le (length_le_of_mem_splitOnComma h)
    · revert ht
      match h : splitOnComma rest with
      | [] => exact absurd h (splitOnComma_ne_nil rest)
      | x :: xs =>
        intro ht
        rcases List.mem_cons.mp ht with h2 | h2
        · subst h2
          have hx : x ∈ splitOnComma rest := by rw [h]; exact List.mem_cons_self _ _
          rcases ih hx with h3 | h3
          · left; rw [h3]
          · right; simpa using Nat.succ_lt_succ h3
        · right
          have : t ∈ splitOnComma rest := by rw [h]; exact List.mem_cons_of_mem _ h2
          exact Nat.lt_succ_of_le (length_le_of_mem_splitOnComma this)

theorem stripPda_length_of_tag {s : List Char} (h : pdaTag.isPrefixOf s) :
    (stripPda s).length + 4 = s.length := by
  unfold stripPda
  rw [if_pos h]
  have hlen : 4 ≤ s.length := by
    have := List.IsPrefix.length_le (List.isPrefixOf_iff_prefix.mp h)
    simpa [pdaTag] using this
  simp [List.length_drop]
  omega

/-- The inner `processPda` closure of `processPlaceholders` (seeder.ts):
strip a leading `pda:`, split on commas, resolve each fragment (the literal
`signer` becomes the caller's identity bytes, a nested `pda:…` fragment is
derived recursively, anything else is raw text bytes), then call the chain
library's deterministic derivation with the program's own address. -/
def processPda (env : ChainEnv) (programId : Addr) (str : List Char) : Addr :=
  let newStr := stripPda str
  let seeds := splitOnComma newStr
  let seedBuffers : List Addr := seeds.attach.map (fun ⟨s, hs⟩ =>
    if s = signerChars then
      env.walletPubkey
    else if hp : pdaTag.isPrefixOf s then
      processPda env programId s
    else
      strBytes s)
  env.findProgramAddress seedBuffers programId
termination_by str.length
decreasing_by
  have hmem : s ∈ splitOnComma (stripPda str) := hs
  by_cases htag : pdaTag.isPrefixOf str
  · have h1 : s.length ≤ (stripPda str).length := length_le_of_mem_splitOnComma hmem
    have h2 := stripPda_length_of_tag htag
    omega
  · have hstr : stripPda str = str := by simp [stripPda, htag]
    rw [hstr] at hmem
    rcases eq_or_lt_of_mem_splitOnComma hmem with h | h
    · subst h
      exact absurd hp htag
    · exact h

/-- JavaScript's `s.startsWith(tag)` on strings, computed on the underlying
character lists. -/
def jsStartsWith (s tag : String) : Bool := tag.data.isPrefixOf s.data

/-- JavaScript's `s.endsWith(tag)` on strings, computed on the underlying
character lists. -/
def jsEndsWith (s tag : String) : Bool := tag.data.isSuffixOf s.data

/-- A JavaScript value as it appears in a `SeedConfig` accounts map or args
list: a string, a numeric value (`number`/`bigint`), or any other value
(object, boolean, `undefined`, …) kept opaque behind an identifier. -/
inductive JsonVal where
  | str : String → JsonVal
  | num : Int → JsonVal
  | other : Nat → JsonVal
deriving DecidableEq, Repr

/-- A value after placeholder resolution: the untouched original
(pass-through), an `anchor.BN`, a `PublicKey`, or a `Keypair` object
(identified by its index in the fresh-key supply; its public half is
`genPubkey`). -/
inductive Resolved where
  | passthrough : JsonVal → Resolved
  | bn : Int → Resolved
  | pubkey : Addr → Resolved
  | keypair : Nat → Resolved
deriving DecidableEq, Repr

/-- `type PlaceholderType = "args" | "accounts"` (seeder.ts). -/
inductive PlaceholderType where
  | args
  | accounts
deriving DecidableEq, Repr

/-- A resolution failure: `new PublicKey(value.toString())` threw in account
context; carries the offending raw string. -/
inductive ResolveError where
  | invalidPubkey : String → ResolveError
deriving DecidableEq, Repr

/-- The per-entry body of the `processPlaceholders` loop (seeder.ts): the
ordered first-match-wins rule chain applied to one value. Returns the
resolved value, the keypair to register under the `_keypair`-suffixed key
(account context of `new:` only), and the advanced fresh-key counter. -/
def resolveValue (env : ChainEnv) (programId : Addr)
    (placeholderType : PlaceholderType) (value : JsonVal) (g : Nat) :
    Except ResolveError ((Resolved × Option Resolved) × Nat) :=
  match value with
  | JsonVal.other _ => .ok ((Resolved.passthrough value, none), g)
  | JsonVal.num n => .ok ((Resolved.bn n, none), g)
  | JsonVal.str s =>
    match env.parsePubkey s with
    | some a => .ok ((Resolved.pubkey a, none), g)
    | none =>
      if s = "signer" ∨ s = "payer" then
        .ok ((Resolved.pubkey env.walletPubkey, none), g)
      else if s = "systemProgram" then
        .ok ((Resolved.pubkey env.systemProgramId, none), g)
      else if s = "rent" then
        .ok ((Resolved.pubkey env.rentSysvar, none), g)
      else if jsStartsWith s "new:" then
        match placeholderType with
        | .accounts => .ok ((Resolved.pubkey (genPubkey g), some (Resolved.keypair g)), g + 1)
        | .args => .ok ((Resolved.pubkey (genPubkey g), none), g + 1)
      else if jsStartsWith s "pda:" then
        .ok ((Resolved.pubkey (processPda env programId s.data), none), g)
      else
        match placeholderType with
        | .args => .ok ((Resolved.passthrough value, none), g)
        | .accounts =>
          match env.parsePubkey s with
          | some a => .ok ((Resolved.pubkey a, none), g)
          | none => .error (ResolveError.invalidPubkey s)

/-- `processPlaceholders` (seeder.ts): iterate the entries of the data in
order, resolving each through `resolveValue`; in account context a `new:`
placeholder additionally stores the generated keypair under
`key + "_keypair"`. Any raised error aborts the whole call. -/
def processPlaceholders (env : ChainEnv) (programId : Addr)
    (placeholderType : PlaceholderType) (data : List (String × JsonVal))
    (g : Nat) : Except ResolveError (List (String × Resolved) × Nat) :=
  match data with
  | [] => .ok ([], g)
  | (key, value) :: rest => do
    let ((rv, kp), g1) ← resolveValue env programId placeholderType value g
    let (restOut, g2) ← processPlaceholders env programId placeholderType rest g1
    match kp with
    | some kpv => .ok ((key, rv) :: (key ++ "_keypair", kpv) :: restOut, g2)
    | none => .ok ((key, rv) :: restOut, g2)

/-- The fragment-resolution lambda inside `processPda` (seeder.ts), as a named
function: the literal `signer` becomes the caller's identity in canonical
binary form, a fragment starting `pda:` is recursively derived, anything else
is its raw text bytes. -/
def fragmentToBuffer (env : ChainEnv) (programId : Addr) (s : List Char) : Addr :=
  if s = signerChars then env.walletPubkey
  else if pdaTag.isPrefixOf s then processPda env programId s
  else strBytes s

/-- `processPda` is the chain derivation applied to the comma-split fragments
of the stripped spec, each resolved by `fragmentToBuffer`. -/
theorem processPda_unfold (env : ChainEnv) (programId : Addr) (str : List Char) :
    processPda env programId str =
      env.findProgramAddress
        ((splitOnComma (stripPda str)).map (fragmentToBuffer env programId)) programId := by
  rw [processPda]
  congr 1
  rw [List.map_attach]
  exact List.pmap_eq_map _ _ _ _

/-- `tx.meta` of a parsed transaction (only the part the seeder reads). -/
structure TxMeta where
  logMessages : Option (List String)
deriving DecidableEq, Repr

/-- A parsed transaction as returned by `getParsedTransaction` (which may
also return `null`, modelled by `Option ParsedTx` at the call site). -/
structure ParsedTx where
  meta : Option TxMeta
deriving DecidableEq, Repr

/-- `tx?.meta?.logMessages || []` (seeder.ts): the confirmed transaction's
log lines, or the empty list when the fetch returned no transaction (or no
meta / no log messages). -/
def logsOf (tx : Option ParsedTx) : List String :=
  match tx with
  | none => []
  | some t =>
    match t.meta with
    | none => []
    | some m => m.logMessages.getD []

/-- A structured program-emitted event decoded from one log line. -/
abbrev Event := String

/-- `eventParser.parseLogs(logs)` (anchor's `EventParser`), modelled as a
scan of the log lines with a per-line decoder supplied by the program's
interface description. -/
def parseLogs (eventOf : String → Option Event) (logs : List String) : List Event :=
  logs.filterMap eventOf

/-- `Object.entries` of a JavaScript array: index keys `"0"`, `"1"`, … paired
with the elements, in order. -/
def arrayEntries (l : List JsonVal) : List (String × JsonVal) :=
  l.enum.map (fun p => (toString p.1, p.2))

/-- The outcome of one `executeFunction` call that the claims observe: the
resolved accounts map handed to `accountsStrict`, the processed positional
arguments, the collected co-signers, and the events scraped from the
post-confirmation log fetch. -/
structure ExecResult where
  functionName : String
  resolvedAccounts : List (String × Resolved)
  processedArgs : List Resolved
  signers : List Resolved
  events : List Event
deriving DecidableEq, Repr

/-- `executeFunction` (seeder.ts): resolve the accounts map and the args list
(in that order, sharing the fresh-key supply), collect every entry of the
resolved accounts map whose key ends with `_keypair` as a transaction
co-signer, submit, and after the settling delay parse the fetched
transaction's logs (`tx` is the fetch's result; `none` models
`getParsedTransaction` returning `null`). -/
def executeFunction (env : ChainEnv) (programId : Addr)
    (eventOf : String → Option Event) (functionName : String)
    (accounts : List (String × JsonVal)) (args : List JsonVal)
    (tx : Option ParsedTx) (g : Nat) : Except ResolveError (ExecResult × Nat) := do
  let (resolvedAccounts, g1) ← processPlaceholders env programId .accounts accounts g
  let (argEntries, g2) ← processPlaceholders env programId .args (arrayEntries args) g1
  let processedArgs := argEntries.map Prod.snd
  let signers := (resolvedAccounts.filter (fun kv => jsEndsWith kv.1 "_keypair")).map Prod.snd
  let logs := logsOf tx
  let events := parseLogs eventOf logs
  .ok ({ functionName := functionName, resolvedAccounts := resolvedAccounts,
         processedArgs := processedArgs, signers := signers, events := events }, g2)

/-- An error raised by one Call Executor invocation (resolution failure or
chain submission failure), kept abstract as its message. -/
abbrev Err := String

/-- One observed Call Executor invocation: the function name, accounts map
and args list passed to `executeFunction`. -/
structure Invocation where
  functionName : String
  accounts : List (String × JsonVal)
  args : List JsonVal
deriving DecidableEq, Repr

/-- The `initialize` member of a `SeedConfig` (types.ts): one CallSpec with
no repeat count. -/
structure InitSpec where
  functionName : String
  accounts : List (String × JsonVal)
  args : List JsonVal
deriving DecidableEq, Repr

/-- One entry of the `seeds` list of a `SeedConfig` (types.ts): a CallSpec
with an optional repeat count. -/
structure SeedEntry where
  functionName : String
  accounts : List (String × JsonVal)
  args : List JsonVal
  repeatN : Option Nat
deriving DecidableEq, Repr

/-- `SeedConfig` (types.ts): one program's seed plan. `initStep` models the
optional `initialize` member, `seeds` the optional `seeds` list. -/
structure SeedConfig where
  program : String
  initStep : Option InitSpec
  seeds : Option (List SeedEntry)
deriving DecidableEq, Repr

/-- JavaScript's `seed.repeat || 1`: `undefined` (and the falsy `0`) become
`1`. -/
def jsOrOne : Option Nat → Nat
  | none => 1
  | some n => if n = 0 then 1 else n

/-- The invocation submitted for an `initialize` step. -/
def initInvocation (ini : InitSpec) : Invocation :=
  ⟨ini.functionName, ini.accounts, ini.args⟩

/-- The invocation submitted for one iteration of a `seeds` entry. -/
def seedInvocation (e : SeedEntry) : Invocation :=
  ⟨e.functionName, e.accounts, e.args⟩

/-- The inner `for (let j = 0; j < repeat; j++)` loop of `seedProgram`
(seeder.ts): run the same CallSpec `n` times through the Call Executor,
stopping at (and propagating) the first throw.  `exec k inv` is the outcome
of the `k`-th executor invocation of the plan (`none` = success); the result
is the list of invocations actually attempted, the next invocation index,
and the propagated error if any. -/
def runRepeatLoop (exec : Nat → Invocation → Option Err) (inv : Invocation) :
    Nat → Nat → List Invocation × Nat × Option Err
  | k, 0 => ([], k, none)
  | k, n + 1 =>
    match exec k inv with
    | some e => ([inv], k + 1, some e)
    | none =>
      let (tr, k2, err) := runRepeatLoop exec inv (k + 1) n
      (inv :: tr, k2, err)

/-- The outer `for` loop over `seedConfig.seeds` of `seedProgram`
(seeder.ts): entries in declared order, each iterated `repeat || 1` times;
a throw abandons the remaining entries and propagates. -/
def runSeedsLoop (exec : Nat → Invocation → Option Err) :
    Nat → List SeedEntry → List Invocation × Nat × Option Err
  | k, [] => ([], k, none)
  | k, e :: rest =>
    let (tr, k2, err) := runRepeatLoop exec (seedInvocation e) k (jsOrOne e.repeatN)
    match err with
    | some er => (tr, k2, some er)
    | none =>
      let (tr2, k3, err2) := runSeedsLoop exec k2 rest
      (tr ++ tr2, k3, err2)

/-- `seedProgram` (seeder.ts): run `initialize` (when present) through the
Call Executor, then the `seeds` entries; any throw aborts the rest of the
plan and is propagated.  Returns the invocations attempted, in order, and
the propagated error if any. -/
def seedProgram (exec : Nat → Invocation → Option Err) (cfg : SeedConfig) :
    List Invocation × Option Err :=
  match cfg.initStep with
  | some ini =>
    match exec 0 (initInvocation ini) with
    | some e => ([initInvocation ini], some e)
    | none =>
      let (tr, _, err) := runSeedsLoop exec 1 (cfg.seeds.getD [])
      (initInvocation ini :: tr, err)
  | none =>
    let (tr, _, err) := runSeedsLoop exec 0 (cfg.seeds.getD [])
    (tr, err)

/-- `runSeeds` (seeder.ts): iterate the loaded seed configs in order,
skipping the ones filtered out by `options.program`; `seedProgram` is run
inside a `try` whose `catch` logs and **rethrows**, so a failing plan ends
the whole loop.  Returns, per attempted program, its attempted invocations,
plus the propagated error if any. -/
def runSeeds (execFor : SeedConfig → Nat → Invocation → Option Err)
    (programFilter : Option String) :
    List SeedConfig → List (String × List Invocation) × Option Err
  | [] => ([], none)
  | cfg :: rest =>
    if (match programFilter with
        | some p => decide (cfg.program ≠ p)
        | none => false) then
      runSeeds execFor programFilter rest
    else
      let (tr, err) := seedProgram (execFor cfg) cfg
      match err with
      | some e => ([(cfg.program, tr)], some e)
      | none =>
        let (out, err2) := runSeeds execFor programFilter rest
        ((cfg.program, tr) :: out, err2)

/-- Modelled from the spec (§4.4, §8 "Sequencer ordering"): the full ordered
expansion of a plan — the `initialize` invocation when present, then each
`seeds` entry `repeat` times (default 1) in declared order. -/
def expandEntries : List SeedEntry → List Invocation
  | [] => []
  | e :: rest => List.replicate (jsOrOne e.repeatN) (seedInvocation e) ++ expandEntries rest

/-- Modelled from the spec (§4.4): the ordered list of Call Executor
invocations a SeedPlan prescribes. -/
def expandPlan (cfg : SeedConfig) : List Invocation :=
  (match cfg.initStep with
   | some ini => [initInvocation ini]
   | none => []) ++ expandEntries (cfg.seeds.getD [])

/-- Straight-line runner over a precomputed invocation list: attempt each in
order, stop at the first failure. -/
def runList (exec : Nat → Invocation → Option Err) :
    Nat → List Invocation → List Invocation × Nat × Option Err
  | k, [] => ([], k, none)
  | k, inv :: rest =>
    match exec k inv with
    | some e => ([inv], k + 1, some e)
    | none =>
      let (tr, k2, err) := runList exec (k + 1) rest
      (inv :: tr, k2, err)

theorem runRepeatLoop_eq_runList (exec : Nat → Invocation → Option Err)
    (inv : Invocation) (k n : Nat) :
    runRepeatLoop exec inv k n = runList exec k (List.replicate n inv) := by
  induction n generalizing k with
  | zero => rfl
  | succ n ih =>
    simp only [runRepeatLoop, List.replicate, runList]
    cases exec k inv with
    | some e => rfl
    | none => rw [ih]

theorem runList_append_ok (exec : Nat → Invocation → Option Err)
    (l1 : List Invocation) (l2 : List Invocation) (k : Nat)
    (h : (runList exec k l1).2.2 = none) :
    runList exec k (l1 ++ l2) =
      ((runList exec k l1).1 ++ (runList exec (runList exec k l1).2.1 l2).1,
       (runList exec (runList exec k l1).2.1 l2).2) := by
  induction l1 generalizing k with
  | nil => simp [runList]
  | cons inv rest ih =>
    cases hx : exec k inv with
    | some e =>
      simp only [runList, List.cons_append, hx] at h
      simp at h
    | none =>
      simp only [runList, List.cons_append, List.append_eq, hx] at h ⊢
      rw [ih (k + 1) h]

theorem runList_append_fail (exec : Nat → Invocation → Option Err)
    (l1 : List Invocation) (l2 : List Invocation) (k : Nat)
    (h : (runList exec k l1).2.2.isSome) :
    runList exec k (l1 ++ l2) = runList exec k l1 := by
  induction l1 generalizing k with
  | nil => simp [runList] at h
  | cons inv rest ih =>
    cases hx : exec k inv with
    | some e => simp only [runList, List.cons_append, hx]
    | none =>
      simp only [runList, List.cons_append, List.append_eq, hx] at h ⊢
      rw [ih (k + 1) h]

theorem runSeedsLoop_eq_runList (exec : Nat → Invocation → Option Err)
    (entries : List SeedEntry) (k : Nat) :
    runSeedsLoop exec k entries = runList exec k (expandEntries entries) := by
  induction entries generalizing k with
  | nil => rfl
  | cons e rest ih =>
    simp only [runSeedsLoop, expandEntries]
    rw [runRepeatLoop_eq_runList]
    cases herr : (runList exec k (List.replicate (jsOrOne e.repeatN) (seedInvocation e))).2.2 with
    | some er =>
      rw [runList_append_fail exec _ _ k (by simp [herr])]
      cases hres : runList exec k (List.replicate (jsOrOne e.repeatN) (seedInvocation e)) with
      | mk tr rest2 =>
        cases rest2 with
        | mk k2 err =>
          rw [hres] at herr
          simp at herr
          simp [herr]
    | none =>
      rw [runList_append_ok exec _ _ k herr]
      cases hres : runList exec k (List.replicate (jsOrOne e.repeatN) (seedInvocation e)) with
      | mk tr rest2 =>
        cases rest2 with
        | mk k2 err =>
          rw [hres] at herr
          simp at herr
          subst herr
          simp [ih k2]

theorem seedProgram_eq_runList (exec : Nat → Invocation → Option Err)
    (cfg : SeedConfig) :
    seedProgram exec cfg =
      ((runList exec 0 (expandPlan cfg)).1, (runList exec 0 (expandPlan cfg)).2.2) := by
  unfold seedProgram expandPlan
  cases cfg.initStep with
  | none => simp [runSeedsLoop_eq_runList]
  | some ini =>
    simp only [List.singleton_append, runList]
    cases exec 0 (initInvocation ini) with
    | some e => rfl
    | none =>
      rw [runSeedsLoop_eq_runList]
      simp

theorem runList_all_ok (exec : Nat → Invocation → Option Err)
    (l : List Invocation) (k : Nat)
    (h : ∀ j inv, exec j inv = none) :
    runList exec k l = (l, k + l.length, none) := by
  induction l generalizing k with
  | nil => simp [runList]
  | cons inv rest ih =>
    simp only [runList, h k inv, ih (k + 1)]
    simp
    omega

theorem runList_first_fail (exec : Nat → Invocation → Option Err)
    (l : List Invocation) (k m : Nat) (e : Err)
    (hm : m < l.length)
    (hok : ∀ j (hj : j < m), exec (k + j) (l.get ⟨j, by omega⟩) = none)
    (hfail : exec (k + m) (l.get ⟨m, hm⟩) = some e) :
    runList exec k l = (l.take (m + 1), k + m + 1, some e) := by
  induction l generalizing k m with
  | nil => simp at hm
  | cons inv rest ih =>
    cases m with
    | zero =>
      simp only [List.get, Nat.add_zero] at hfail
      simp [runList, hfail]
    | succ m =>
      have h0 : exec k inv = none := by
        have := hok 0 (Nat.succ_pos m)
        simpa using this
      simp only [runList, h0]
      have hm2 : m < rest.length := by simpa using hm
      have hok2 : ∀ j (hj : j < m), exec (k + 1 + j) (rest.get ⟨j, by omega⟩) = none := by
        intro j hj
        have := hok (j + 1) (by omega)
        have harith : k + (j + 1) = k + 1 + j := by omega
        rw [harith] at this
        simpa using this
      have hfail2 : exec (k + 1 + m) (rest.get ⟨m, hm2⟩) = some e := by
        have harith : k + 1 + m = k + (m + 1) := by omega
        rw [harith]
        simpa using hfail
      rw [ih (k + 1) m hm2 hok2 hfail2]
      simp only [List.take_succ_cons, Prod.mk.injEq, List.cons.injEq, true_and]
      constructor
      · omega
      · trivial

theorem jsEndsWith_append_self (k : String) :
    jsEndsWith (k ++ "_keypair") "_keypair" = true := by
  unfold jsEndsWith
  rw [String.data_append, List.isSuffixOf_iff_suffix]
  exact List.suffix_append _ _

theorem head?_of_isPrefixOf {a s : List Char} (h : a.isPrefixOf s = true)
    (ha : a ≠ []) : s.head? = a.head? := by
  rw [List.isPrefixOf_iff_prefix] at h
  rcases h with ⟨t, rfl⟩
  cases a with
  | nil => exact absurd rfl ha
  | cons c cs => rfl

theorem new_not_keyword {s : String} (h : jsStartsWith s "new:" = true) :
    s ≠ "signer" ∧ s ≠ "payer" ∧ s ≠ "systemProgram" ∧ s ≠ "rent" := by
  refine ⟨?_, ?_, ?_, ?_⟩ <;> intro he <;> subst he <;> exact absurd h (by decide)

theorem pda_not_keyword {s : String} (h : jsStartsWith s "pda:" = true) :
    s ≠ "signer" ∧ s ≠ "payer" ∧ s ≠ "systemProgram" ∧ s ≠ "rent" := by
  refine ⟨?_, ?_, ?_, ?_⟩ <;> intro he <;> subst he <;> exact absurd h (by decide)

theorem new_false_of_pda {s : String} (h : jsStartsWith s "pda:" = true) :
    jsStartsWith s "new:" = false := by
  rw [Bool.eq_false_iff]
  intro hn
  have h1 := head?_of_isPrefixOf (a := "pda:".data) h (by decide)
  have h2 := head?_of_isPrefixOf (a := "new:".data) hn (by decide)
  rw [h1] at h2
  exact absurd h2 (by decide)

theorem resolveValue_new (env : ChainEnv) (programId : Addr)
    (ctx : PlaceholderType) (s : String) (g : Nat)
    (hparse : env.parsePubkey s = none) (hnew : jsStartsWith s "new:" = true) :
    resolveValue env programId ctx (.str s) g =
      .ok ((Resolved.pubkey (genPubkey g),
            match ctx with
            | .accounts => some (Resolved.keypair g)
            | .args => none), g + 1) := by
  obtain ⟨h1, h2, h3, h4⟩ := new_not_keyword hnew
  cases ctx <;> simp [resolveValue, hparse, hnew, h1, h2, h3, h4]

theorem executeFunction_new_single (env : ChainEnv) (programId : Addr)
    (eventOf : String → Option Event) (fn k s : String) (tx : Option ParsedTx)
    (g : Nat) (hparse : env.parsePubkey s = none)
    (hnew : jsStartsWith s "new:" = true)
    (hk : jsEndsWith k "_keypair" = false) :
    executeFunction env programId eventOf fn [(k, JsonVal.str s)] [] tx g =
      .ok ({ functionName := fn,
             resolvedAccounts := [(k, Resolved.pubkey (genPubkey g)),
                                  (k ++ "_keypair", Resolved.keypair g)],
             processedArgs := [],
             signers := [Resolved.keypair g],
             events := parseLogs eventOf (logsOf tx) }, g + 1) := by
  simp only [executeFunction, processPlaceholders, arrayEntries,
             resolveValue_new env programId .accounts s g hparse hnew]
  show Except.ok
      (({ functionName := fn,
          resolvedAccounts := [(k, Resolved.pubkey (genPubkey g)),
                               (k ++ "_keypair", Resolved.keypair g)],
          processedArgs := [],
          signers := (List.filter (fun kv => jsEndsWith kv.1 "_keypair")
              [(k, Resolved.pubkey (genPubkey g)),
               (k ++ "_keypair", Resolved.keypair g)]).map Prod.snd,
          events := parseLogs eventOf (logsOf tx) } : ExecResult), g + 1) =
    Except.ok
      (({ functionName := fn,
          resolvedAccounts := [(k, Resolved.pubkey (genPubkey g)),
                               (k ++ "_keypair", Resolved.keypair g)],
          processedArgs := [],
          signers := [Resolved.keypair g],
          events := parseLogs eventOf (logsOf tx) } : ExecResult), g + 1)
  simp [List.filter, hk, jsEndsWith_append_self]

/-- The inner repeat loop of `seedProgram` (seeder.ts) composed with the real
`executeFunction`: each iteration re-invokes the Call Executor on the same
CallSpec, threading the fresh-key supply through the iterations (the
iterations run strictly sequentially). -/
def runRepeatExec (env : ChainEnv) (programId : Addr)
    (eventOf : String → Option Event) (fn : String)
    (accounts : List (String × JsonVal)) (args : List JsonVal)
    (tx : Option ParsedTx) :
    Nat → Nat → Except ResolveError (List ExecResult × Nat)
  | g, 0 => .ok ([], g)
  | g, n + 1 => do
    let (r, g1) ← executeFunction env programId eventOf fn accounts args tx g
    let (rs, g2) ← runRepeatExec env programId eventOf fn accounts args tx g1 n
    .ok (r :: rs, g2)

/-- A concrete chain environment used to instantiate theorems with
hypotheses: one parseable address string `"Addr1"`, a derivation function
that records the seed count, the seeds and the program address. -/
def witEnv : ChainEnv where
  parsePubkey := fun s => if s = "Addr1" then some [100] else none
  findProgramAddress := fun seeds pid => [seeds.length] ++ pid ++ seeds.flatten
  walletPubkey := [7]
  systemProgramId := [8]
  rentSysvar := [9]

/-- C1: placeholder resolution tries the rules in this fixed order with
first match winning: (1) values that are not string/number/bigint pass
through unchanged; (2) numeric values become an arbitrary-precision `BN`;
(3) a string parsing as a valid address resolves to that address (even when
a later rule could also match); (4) `signer`/`payer` resolve to the caller's
identity; (5) `systemProgram` to the system-program address; (6) `rent` to
the rent sysvar; (7) `new:`… mints a fresh keypair; (8) `pda:`… runs address
derivation; (9) otherwise argument context passes the value through while
account context re-parses it as an address and fails with a resolution
error. -/
theorem c1_placeholder_resolution_order (env : ChainEnv) (programId : Addr)
    (ctx : PlaceholderType) (g : Nat) :
    (∀ o, resolveValue env programId ctx (.other o) g =
      .ok ((.passthrough (.other o), none), g)) ∧
    (∀ n, resolveValue env programId ctx (.num n) g = .ok ((.bn n, none), g)) ∧
    (∀ s a, env.parsePubkey s = some a →
      resolveValue env programId ctx (.str s) g = .ok ((.pubkey a, none), g)) ∧
    (∀ s, env.parsePubkey s = none → (s = "signer" ∨ s = "payer") →
      resolveValue env programId ctx (.str s) g =
        .ok ((.pubkey env.walletPubkey, none), g)) ∧
    (env.parsePubkey "systemProgram" = none →
      resolveValue env programId ctx (.str "systemProgram") g =
        .ok ((.pubkey env.systemProgramId, none), g)) ∧
    (env.parsePubkey "rent" = none →
      resolveValue env programId ctx (.str "rent") g =
        .ok ((.pubkey env.rentSysvar, none), g)) ∧
    (∀ s, env.parsePubkey s = none → jsStartsWith s "new:" = true →
      resolveValue env programId ctx (.str s) g =
        .ok ((.pubkey (genPubkey g),
              match ctx with
              | .accounts => some (.keypair g)
              | .args => none), g + 1)) ∧
    (∀ s, env.parsePubkey s = none → jsStartsWith s "pda:" = true →
      resolveValue env programId ctx (.str s) g =
        .ok ((.pubkey (processPda env programId s.data), none), g)) ∧
    (∀ s, env.parsePubkey s = none →
      s ≠ "signer" → s ≠ "payer" → s ≠ "systemProgram" → s ≠ "rent" →
      jsStartsWith s "new:" = false → jsStartsWith s "pda:" = false →
      resolveValue env programId ctx (.str s) g =
        match ctx with
        | .args => .ok ((.passthrough (.str s), none), g)
        | .accounts => .error (.invalidPubkey s)) := by
  refine ⟨fun o => rfl, fun n => rfl, ?_, ?_, ?_, ?_, ?_, ?_, ?_⟩
  · intro s a h
    simp [resolveValue, h]
  · intro s hparse hs
    simp [resolveValue, hparse, hs]
  · intro hparse
    have h1 : ¬((("systemProgram" : String) = "signer") ∨ (("systemProgram" : String) = "payer")) := by decide
    simp [resolveValue, hparse, h1]
  · intro hparse
    have h1 : ¬((("rent" : String) = "signer") ∨ (("rent" : String) = "payer")) := by decide
    have h2 : ("rent" : String) ≠ "systemProgram" := by decide
    simp [resolveValue, hparse, h1, h2]
  · intro s hparse hnew
    exact resolveValue_new env programId ctx s g hparse hnew
  · intro s hparse hpda
    obtain ⟨h1, h2, h3, h4⟩ := pda_not_keyword hpda
    have hnew := new_false_of_pda hpda
    simp [resolveValue, hparse, h1, h2, h3, h4, hnew, hpda]
  · intro s hparse h1 h2 h3 h4 hnew hpda
    cases ctx <;> simp [resolveValue, hparse, h1, h2, h3, h4, hnew, hpda]

/-- Witness for C1 at the concrete environment `witEnv`: a parseable address
string resolves as an address; an unrecognized plain string passes through
in argument context but is a resolution error in account context. -/
theorem c1_witness :
    resolveValue witEnv [3] .accounts (.str "Addr1") 0 =
      .ok ((.pubkey [100], none), 0) ∧
    resolveValue witEnv [3] .args (.str "hello") 0 =
      .ok ((.passthrough (.str "hello"), none), 0) ∧
    resolveValue witEnv [3] .accounts (.str "hello") 0 =
      .error (.invalidPubkey "hello") := by
  refine ⟨?_, ?_, ?_⟩
  · exact (c1_placeholder_resolution_order witEnv [3] .accounts 0).2.2.1 "Addr1" [100] rfl
  · exact (c1_placeholder_resolution_order witEnv [3] .args 0).2.2.2.2.2.2.2.2 "hello"
      rfl (by decide) (by decide) (by decide) (by decide) (by decide) (by decide)
  · exact (c1_placeholder_resolution_order witEnv [3] .accounts 0).2.2.2.2.2.2.2.2 "hello"
      rfl (by decide) (by decide) (by decide) (by decide) (by decide) (by decide)

/-- C2: `pda:` derivation strips the `pda:` tag, splits on commas, and
resolves each fragment independently: the fragment `signer` becomes the
caller's identity in canonical binary form (never the literal text), a
fragment itself starting `pda:` is recursively derived and its canonical
binary form used as a single seed, and any other fragment is its raw text
bytes; the seed list plus the target program's address feed the chain
library's deterministic derivation. -/
theorem c2_pda_derivation (env : ChainEnv) (programId : Addr) :
    (∀ str, processPda env programId str =
      env.findProgramAddress
        ((splitOnComma (stripPda str)).map (fragmentToBuffer env programId))
        programId) ∧
    (∀ rest : List Char, stripPda (pdaTag ++ rest) = rest) ∧
    (fragmentToBuffer env programId signerChars = env.walletPubkey) ∧
    (∀ frag, pdaTag.isPrefixOf frag = true →
      fragmentToBuffer env programId frag = processPda env programId frag) ∧
    (∀ frag, frag ≠ signerChars → pdaTag.isPrefixOf frag = false →
      fragmentToBuffer env programId frag = strBytes frag) := by
  refine ⟨processPda_unfold env programId, ?_, by simp [fragmentToBuffer], ?_, ?_⟩
  · intro rest
    have hpre : pdaTag.isPrefixOf (pdaTag ++ rest) = true := by
      rw [List.isPrefixOf_iff_prefix]
      exact List.prefix_append _ _
    unfold stripPda
    rw [if_pos hpre]
    rw [show (4 : Nat) = pdaTag.length from rfl, List.drop_left]
  · intro frag h
    have hne : frag ≠ signerChars := by
      intro he
      subst he
      have := head?_of_isPrefixOf h (by decide)
      exact absurd this (by decide)
    simp [fragmentToBuffer, hne, h]
  · intro frag h1 h2
    simp [fragmentToBuffer, h1, h2]

/-- Witness for C2: a concrete two-level derivation evaluated to its
address, and the `signer` fragment resolving to the caller identity, not to
its raw text bytes. -/
theorem c2_witness :
    processPda witEnv [3] "pda:a,pda:x".data = [2, 3, 97, 1, 3, 120] ∧
    fragmentToBuffer witEnv [3] signerChars = witEnv.walletPubkey ∧
    fragmentToBuffer witEnv [3] signerChars ≠ strBytes signerChars := by
  obtain ⟨hu, hstrip, hsig, hnest, hlit⟩ := c2_pda_derivation witEnv [3]
  refine ⟨?_, hsig, ?_⟩
  · rw [hu]
    have hsplit : splitOnComma (stripPda "pda:a,pda:x".data) =
        ["a".data, "pda:x".data] := by decide
    rw [hsplit, List.map_cons, List.map_cons, List.map_nil]
    rw [hnest "pda:x".data (by decide)]
    rw [hu]
    have hsplit2 : splitOnComma (stripPda "pda:x".data) = ["x".data] := by decide
    rw [hsplit2, List.map_cons, List.map_nil]
    rw [hlit "x".data (by decide) (by decide), hlit "a".data (by decide) (by decide)]
    decide
  · rw [hsig]
    decide

theorem frag_length_lt {str frag : List Char}
    (hmem : frag ∈ splitOnComma (stripPda str))
    (hp : pdaTag.isPrefixOf frag = true) : frag.length < str.length := by
  by_cases htag : pdaTag.isPrefixOf str
  · have h1 := length_le_of_mem_splitOnComma hmem
    have h2 := stripPda_length_of_tag htag
    omega
  · have hstr : stripPda str = str := by simp [stripPda, htag]
    rw [hstr] at hmem
    rcases eq_or_lt_of_mem_splitOnComma hmem with h | h
    · subst h
      exact absurd hp htag
    · exact h

/-- C10: address derivation is deterministic — it depends only on the seed
spec string, the caller's public identity and the chain library's
(deterministic) derivation primitive, so two runs with the same caller and
program yield the identical address; in particular it draws nothing from
the fresh-key supply or any other dynamic state. -/
theorem c10_derivation_deterministic (env1 env2 : ChainEnv) (programId : Addr)
    (hw : env1.walletPubkey = env2.walletPubkey)
    (hf : ∀ seeds pid, env1.findProgramAddress seeds pid =
      env2.findProgramAddress seeds pid) :
    ∀ str, processPda env1 programId str = processPda env2 programId str := by
  have main : ∀ n str, str.length < n →
      processPda env1 programId str = processPda env2 programId str := by
    intro n
    induction n with
    | zero => intro str h; omega
    | succ n ih =>
      intro str hlen
      rw [processPda_unfold, processPda_unfold, hf]
      congr 1
      apply List.map_congr_left
      intro frag hfrag
      by_cases h1 : frag = signerChars
      · simp [fragmentToBuffer, h1, hw]
      · by_cases h2 : pdaTag.isPrefixOf frag
        · have hlt := frag_length_lt hfrag h2
          have hrec := ih frag (by omega)
          simp [fragmentToBuffer, h1, h2, hrec]
        · simp [fragmentToBuffer, h1, h2]
  intro str
  exact main (str.length + 1) str (by omega)

/-- Witness for C10: deriving the same spec twice in the same environment
gives the same address. -/
theorem c10_witness :
    processPda witEnv [3] "pda:a,signer".data =
      processPda witEnv [3] "pda:a,signer".data :=
  c10_derivation_deterministic witEnv witEnv [3] rfl (fun _ _ => rfl)
    "pda:a,signer".data

/-- C3: a `new:` placeholder resolves to the public half of a freshly
generated keypair; in account context — and only there — the keypair is
additionally registered under the role name with a `_keypair` suffix, and
the Call Executor collects it as a transaction co-signer; in argument
context nothing is registered and no co-signer results. -/
theorem c3_new_keypair_cosigner (env : ChainEnv) (programId : Addr)
    (eventOf : String → Option Event) (fn k s : String) (tx : Option ParsedTx)
    (g : Nat) (hparse : env.parsePubkey s = none)
    (hnew : jsStartsWith s "new:" = true) :
    (processPlaceholders env programId .accounts [(k, JsonVal.str s)] g =
      .ok ([(k, Resolved.pubkey (genPubkey g)),
            (k ++ "_keypair", Resolved.keypair g)], g + 1)) ∧
    (processPlaceholders env programId .args [(k, JsonVal.str s)] g =
      .ok ([(k, Resolved.pubkey (genPubkey g))], g + 1)) ∧
    (jsEndsWith k "_keypair" = false →
      executeFunction env programId eventOf fn [(k, JsonVal.str s)] [] tx g =
        .ok ({ functionName := fn,
               resolvedAccounts := [(k, Resolved.pubkey (genPubkey g)),
                                    (k ++ "_keypair", Resolved.keypair g)],
               processedArgs := [],
               signers := [Resolved.keypair g],
               events := parseLogs eventOf (logsOf tx) }, g + 1)) ∧
    (executeFunction env programId eventOf fn [] [JsonVal.str s] tx g =
      .ok ({ functionName := fn,
             resolvedAccounts := [],
             processedArgs := [Resolved.pubkey (genPubkey g)],
             signers := [],
             events := parseLogs eventOf (logsOf tx) }, g + 1)) := by
  refine ⟨?_, ?_, ?_, ?_⟩
  · simp only [processPlaceholders,
      resolveValue_new env programId .accounts s g hparse hnew]
    rfl
  · simp only [processPlaceholders,
      resolveValue_new env programId .args s g hparse hnew]
    rfl
  · intro hk
    exact executeFunction_new_single env programId eventOf fn k s tx g hparse hnew hk
  · have hres : ∀ g', resolveValue env programId .args (JsonVal.str s) g' =
        .ok ((Resolved.pubkey (genPubkey g'), none), g' + 1) := fun g' =>
      resolveValue_new env programId .args s g' hparse hnew
    simp only [executeFunction, processPlaceholders, arrayEntries, List.enum, hres]
    rfl

/-- Witness for C3 at `witEnv`: resolving `new:v` under role `vault`. -/
theorem c3_witness :
    processPlaceholders witEnv [3] .accounts [("vault", JsonVal.str "new:v")] 0 =
      .ok ([("vault", Resolved.pubkey (genPubkey 0)),
            ("vault_keypair", Resolved.keypair 0)], 1) ∧
    processPlaceholders witEnv [3] .args [("vault", JsonVal.str "new:v")] 0 =
      .ok ([("vault", Resolved.pubkey (genPubkey 0))], 1) ∧
    executeFunction witEnv [3] (fun _ => none) "mint" [] [JsonVal.str "new:v"]
        none 0 =
      .ok ({ functionName := "mint",
             resolvedAccounts := [],
             processedArgs := [Resolved.pubkey (genPubkey 0)],
             signers := [],
             events := [] }, 1) := by
  obtain ⟨h1, h2, _h3, h4⟩ :=
    c3_new_keypair_cosigner witEnv [3] (fun _ => none) "mint" "vault" "new:v"
      none 0 rfl (by decide)
  exact ⟨h1, h2, h4⟩

theorem except_bind_ok {e a b : Type} (x : a) (f : a → Except e b) :
    (Except.ok x : Except e a) >>= f = f x := rfl

theorem executeFunction_eq (env : ChainEnv) (programId : Addr)
    (eventOf : String → Option Event) (fn : String)
    (accounts : List (String × JsonVal)) (args : List JsonVal)
    (tx : Option ParsedTx) (g : Nat) :
    executeFunction env programId eventOf fn accounts args tx g =
      match processPlaceholders env programId .accounts accounts g with
      | .error e => .error e
      | .ok (resolvedAccounts, g1) =>
        match processPlaceholders env programId .args (arrayEntries args) g1 with
        | .error e => .error e
        | .ok (argEntries, g2) =>
          .ok ({ functionName := fn,
                 resolvedAccounts := resolvedAccounts,
                 processedArgs := argEntries.map Prod.snd,
                 signers := ((resolvedAccounts.filter
                   (fun kv => jsEndsWith kv.1 "_keypair")).map Prod.snd),
                 events := parseLogs eventOf (logsOf tx) }, g2) := by
  unfold executeFunction
  cases processPlaceholders env programId .accounts accounts g with
  | error e => rfl
  | ok p =>
    obtain ⟨l1, g1⟩ := p
    simp only [except_bind_ok]
    cases processPlaceholders env programId .args (arrayEntries args) g1 with
    | error e => rfl
    | ok q =>
      obtain ⟨l2, g2⟩ := q
      rfl

/-- C7: when the post-confirmation log fetch returns no transaction, the
call is still treated as successful — `executeFunction` does not raise for
a missing transaction, and the call yields zero emitted events. -/
theorem c7_missing_tx_nonfatal (env : ChainEnv) (programId : Addr)
    (eventOf : String → Option Event) (fn : String)
    (accounts : List (String × JsonVal)) (args : List JsonVal) (g : Nat) :
    (∀ r g2, executeFunction env programId eventOf fn accounts args none g =
        .ok (r, g2) → r.events = []) ∧
    (∀ tx r g2,
      executeFunction env programId eventOf fn accounts args (some tx) g =
        .ok (r, g2) →
      executeFunction env programId eventOf fn accounts args none g =
        .ok ({ r with events := [] }, g2)) := by
  constructor
  · intro r g2 h
    rw [executeFunction_eq] at h
    cases hacc : processPlaceholders env programId .accounts accounts g with
    | error e => rw [hacc] at h; exact absurd h (by simp)
    | ok p =>
      obtain ⟨l1, g1⟩ := p
      rw [hacc] at h
      dsimp only at h
      cases hargs : processPlaceholders env programId .args (arrayEntries args) g1 with
      | error e => rw [hargs] at h; exact absurd h (by simp)
      | ok q =>
        obtain ⟨l2, g2x⟩ := q
        rw [hargs] at h
        dsimp only at h
        simp only [Except.ok.injEq, Prod.mk.injEq] at h
        obtain ⟨hr, _⟩ := h
        rw [← hr]
        rfl
  · intro tx r g2 h
    rw [executeFunction_eq] at h ⊢
    cases hacc : processPlaceholders env programId .accounts accounts g with
    | error e => rw [hacc] at h; exact absurd h (by simp)
    | ok p =>
      obtain ⟨l1, g1⟩ := p
      rw [hacc] at h
      dsimp only at h ⊢
      cases hargs : processPlaceholders env programId .args (arrayEntries args) g1 with
      | error e => rw [hargs] at h; exact absurd h (by simp)
      | ok q =>
        obtain ⟨l2, g2x⟩ := q
        rw [hargs] at h
        dsimp only at h ⊢
        simp only [Except.ok.injEq, Prod.mk.injEq] at h
        obtain ⟨hr, hg⟩ := h
        subst hg
        rw [← hr]
        rfl

/-- Witness for C7: a concrete confirmed call whose log fetch returned no
transaction still succeeds, with an empty event list. -/
theorem c7_witness :
    executeFunction witEnv [3] some "f" [("auth", JsonVal.str "signer")] []
        none 0 =
      .ok ({ functionName := "f",
             resolvedAccounts := [("auth", Resolved.pubkey [7])],
             processedArgs := [], signers := [], events := [] }, 0) ∧
    ExecResult.events
      { functionName := "f",
        resolvedAccounts := [("auth", Resolved.pubkey [7])],
        processedArgs := [], signers := [], events := [] } = [] := by
  have hexec : executeFunction witEnv [3] some "f"
      [("auth", JsonVal.str "signer")] [] none 0 =
      .ok ({ functionName := "f",
             resolvedAccounts := [("auth", Resolved.pubkey [7])],
             processedArgs := [], signers := [], events := [] }, 0) := by rfl
  exact ⟨hexec,
    (c7_missing_tx_nonfatal witEnv [3] some "f"
      [("auth", JsonVal.str "signer")] [] 0).1 _ 0 hexec⟩

theorem resolveValue_addr (env : ChainEnv) (programId : Addr)
    (ctx : PlaceholderType) (s : String) (a : Addr) (g : Nat)
    (hparse : env.parsePubkey s = some a) :
    resolveValue env programId ctx (.str s) g = .ok ((.pubkey a, none), g) := by
  simp [resolveValue, hparse]

theorem executeFunction_addr_single (env : ChainEnv) (programId : Addr)
    (eventOf : String → Option Event) (fn k astr : String) (a : Addr)
    (tx : Option ParsedTx) (g : Nat)
    (hparse : env.parsePubkey astr = some a)
    (hk : jsEndsWith k "_keypair" = true) :
    executeFunction env programId eventOf fn [(k, JsonVal.str astr)] [] tx g =
      .ok ({ functionName := fn,
             resolvedAccounts := [(k, Resolved.pubkey a)],
             processedArgs := [],
             signers := [Resolved.pubkey a],
             events := parseLogs eventOf (logsOf tx) }, g) := by
  simp only [executeFunction, processPlaceholders, arrayEntries,
             resolveValue_addr env programId .accounts astr a g hparse]
  show Except.ok
      (({ functionName := fn,
          resolvedAccounts := [(k, Resolved.pubkey a)],
          processedArgs := [],
          signers := (List.filter (fun kv => jsEndsWith kv.1 "_keypair")
              [(k, Resolved.pubkey a)]).map Prod.snd,
          events := parseLogs eventOf (logsOf tx) } : ExecResult), g) =
    Except.ok
      (({ functionName := fn,
          resolvedAccounts := [(k, Resolved.pubkey a)],
          processedArgs := [],
          signers := [Resolved.pubkey a],
          events := parseLogs eventOf (logsOf tx) } : ExecResult), g)
  simp [List.filter, hk]

/-- C9: the resolved accounts map handed to the account-binding step keeps
the synthesized `role + "_keypair"` entries, and the Call Executor's
co-signer criterion is exactly "map key ends with `_keypair`" over that
map — so a user-authored role whose name merely ends with `_keypair` is
also passed as a transaction co-signer. -/
theorem c9_keypair_suffix_criterion (env : ChainEnv) (programId : Addr)
    (eventOf : String → Option Event) (fn : String) (tx : Option ParsedTx)
    (g : Nat) :
    (∀ accounts args r g2,
      executeFunction env programId eventOf fn accounts args tx g = .ok (r, g2) →
      r.signers = (r.resolvedAccounts.filter
        (fun kv => jsEndsWith kv.1 "_keypair")).map Prod.snd) ∧
    (∀ k s, env.parsePubkey s = none → jsStartsWith s "new:" = true →
      jsEndsWith k "_keypair" = false →
      executeFunction env programId eventOf fn [(k, JsonVal.str s)] [] tx g =
        .ok ({ functionName := fn,
               resolvedAccounts := [(k, Resolved.pubkey (genPubkey g)),
                                    (k ++ "_keypair", Resolved.keypair g)],
               processedArgs := [],
               signers := [Resolved.keypair g],
               events := parseLogs eventOf (logsOf tx) }, g + 1)) ∧
    (∀ k astr a, jsEndsWith k "_keypair" = true →
      env.parsePubkey astr = some a →
      executeFunction env programId eventOf fn [(k, JsonVal.str astr)] [] tx g =
        .ok ({ functionName := fn,
               resolvedAccounts := [(k, Resolved.pubkey a)],
               processedArgs := [],
               signers := [Resolved.pubkey a],
               events := parseLogs eventOf (logsOf tx) }, g)) := by
  refine ⟨?_, ?_, ?_⟩
  · intro accounts args r g2 h
    rw [executeFunction_eq] at h
    cases hacc : processPlaceholders env programId .accounts accounts g with
    | error e => rw [hacc] at h; exact absurd h (by simp)
    | ok p =>
      obtain ⟨l1, g1⟩ := p
      rw [hacc] at h
      dsimp only at h
      cases hargs : processPlaceholders env programId .args (arrayEntries args) g1 with
      | error e => rw [hargs] at h; exact absurd h (by simp)
      | ok q =>
        obtain ⟨l2, g2x⟩ := q
        rw [hargs] at h
        dsimp only at h
        simp only [Except.ok.injEq, Prod.mk.injEq] at h
        obtain ⟨hr, _⟩ := h
        rw [← hr]
  · intro k s hparse hnew hk
    exact executeFunction_new_single env programId eventOf fn k s tx g hparse hnew hk
  · intro k astr a hk hparse
    exact executeFunction_addr_single env programId eventOf fn k astr a tx g hparse hk

/-- Witness for C9: the user-authored role `foo_keypair` bound to a plain
address string is collected as a co-signer, and a `new:` placeholder's
synthesized `vault_keypair` entry stays in the resolved accounts map. -/
theorem c9_witness :
    executeFunction witEnv [3] some "f"
        [("foo_keypair", JsonVal.str "Addr1")] [] none 0 =
      .ok ({ functionName := "f",
             resolvedAccounts := [("foo_keypair", Resolved.pubkey [100])],
             processedArgs := [],
             signers := [Resolved.pubkey [100]],
             events := [] }, 0) ∧
    executeFunction witEnv [3] some "f"
        [("vault", JsonVal.str "new:v")] [] none 0 =
      .ok ({ functionName := "f",
             resolvedAccounts := [("vault", Resolved.pubkey (genPubkey 0)),
                                  ("vault_keypair", Resolved.keypair 0)],
             processedArgs := [],
             signers := [Resolved.keypair 0],
             events := [] }, 1) := by
  obtain ⟨_hcrit, hnew, haddr⟩ :=
    c9_keypair_suffix_criterion witEnv [3] some "f" none 0
  constructor
  · exact haddr "foo_keypair" "Addr1" [100] (by decide) rfl
  · exact hnew "vault" "new:v" rfl (by decide) (by decide)

/-- C5: for every SeedPlan the Call Executor is invoked exactly once for
`initialize` (when present) before any `seeds` entry, then once per
iteration for each `seeds` entry in declared order, each entry iterated
`repeat` times (default 1), strictly sequentially — when no invocation
throws, the observed invocation trace is exactly the plan's ordered
expansion. -/
theorem c5_sequencer_ordering (exec : Nat → Invocation → Option Err)
    (cfg : SeedConfig) (h : ∀ j inv, exec j inv = none) :
    seedProgram exec cfg = (expandPlan cfg, none) := by
  rw [seedProgram_eq_runList, runList_all_ok exec _ 0 h]

/-- The spec's own ordering example: `initialize` plus two `seeds` entries,
the first with `repeat: 3`. -/
def cfgCounter : SeedConfig :=
  { program := "counter",
    initStep := some ⟨"initialize", [], []⟩,
    seeds := some [⟨"seed1", [], [], some 3⟩, ⟨"seed2", [], [], none⟩] }

/-- Witness for C5: the example plan yields exactly 1 + 3 + 1 = 5
invocations in the order initialize, seed1×3, seed2. -/
theorem c5_witness :
    seedProgram (fun _ _ => none) cfgCounter =
      ([⟨"initialize", [], []⟩, ⟨"seed1", [], []⟩, ⟨"seed1", [], []⟩,
        ⟨"seed1", [], []⟩, ⟨"seed2", [], []⟩], none) := by
  rw [c5_sequencer_ordering (fun _ _ => none) cfgCounter (fun _ _ => rfl)]
  rfl

/-- C6: if any repeat iteration of any entry throws (the `m`-th invocation
of the plan's expansion being the first to do so), the remaining iterations
and all later entries never execute — the trace is cut right after the
failing invocation — and the plan's result carries the raised error. -/
theorem c6_fail_fast (exec : Nat → Invocation → Option Err)
    (cfg : SeedConfig) (m : Nat) (e : Err)
    (hm : m < (expandPlan cfg).length)
    (hok : ∀ j (hj : j < m), exec j ((expandPlan cfg).get ⟨j, by omega⟩) = none)
    (hfail : exec m ((expandPlan cfg).get ⟨m, hm⟩) = some e) :
    seedProgram exec cfg = ((expandPlan cfg).take (m + 1), some e) := by
  have hok2 : ∀ j (hj : j < m),
      exec (0 + j) ((expandPlan cfg).get ⟨j, by omega⟩) = none := by
    intro j hj
    simpa using hok j hj
  have hfail2 : exec (0 + m) ((expandPlan cfg).get ⟨m, hm⟩) = some e := by
    simpa using hfail
  rw [seedProgram_eq_runList,
      runList_first_fail exec (expandPlan cfg) 0 m e hm hok2 hfail2]

/-- An executor oracle that throws on the plan's third invocation (the
second repeat of `seed1` in `cfgCounter`). -/
def execThirdBoom : Nat → Invocation → Option Err :=
  fun j _ => if j = 2 then some "boom" else none

/-- Witness for C6: with `seed1`'s second repeat throwing, `seed1`'s third
repeat and `seed2` never run and the error is the plan's result. -/
theorem c6_witness :
    seedProgram execThirdBoom cfgCounter =
      ([⟨"initialize", [], []⟩, ⟨"seed1", [], []⟩, ⟨"seed1", [], []⟩],
       some "boom") := by
  have h := c6_fail_fast execThirdBoom cfgCounter 2 "boom" (by decide)
    (by
      intro j hj
      have : j ≠ 2 := by omega
      simp [execThirdBoom, this])
    (by decide)
  rw [h]
  rfl

/-- A plan named `A` with a single `initialize` call. -/
def cfgA4 : SeedConfig := ⟨"A", some ⟨"init", [], []⟩, none⟩

/-- A plan named `B` with a single `initialize` call. -/
def cfgB4 : SeedConfig := ⟨"B", some ⟨"init", [], []⟩, none⟩

/-- An executor oracle whose every invocation throws. -/
def execBoom : SeedConfig → Nat → Invocation → Option Err :=
  fun _ _ _ => some "boom"

/-- Counterexample to C4 as stated: with two queued plans `A` then `B` and
`A`'s seeding failing, the loop rethrows — the run ends with the error and
plan `B` is never attempted, contradicting "every later SeedPlan in the
loader's order is still attempted in the same run". -/
theorem c4_counterexample :
    (runSeeds execBoom none [cfgA4, cfgB4]).2 = some "boom" ∧
    "B" ∉ (runSeeds execBoom none [cfgA4, cfgB4]).1.map Prod.fst := by
  constructor
  · rfl
  · decide

/-- C4 (amended): when one SeedPlan's execution fails, the Sequencer's
`catch` logs and rethrows, so the whole run aborts — that program's
remaining steps are abandoned and every later SeedPlan in the loader's
order is NOT attempted; the error propagates to `runSeeds`'s caller. -/
theorem c4_failure_aborts_run
    (execFor : SeedConfig → Nat → Invocation → Option Err)
    (programFilter : Option String) (cfg : SeedConfig)
    (rest : List SeedConfig) (tr : List Invocation) (e : Err)
    (hfilter : (match programFilter with
                | some p => decide (cfg.program ≠ p)
                | none => false) = false)
    (hfail : seedProgram (execFor cfg) cfg = (tr, some e)) :
    runSeeds execFor programFilter (cfg :: rest) =
      ([(cfg.program, tr)], some e) := by
  simp only [runSeeds, hfilter, hfail]
  rfl

/-- Witness for the amended C4 at the concrete two-plan input. -/
theorem c4_witness :
    runSeeds execBoom none [cfgA4, cfgB4] =
      ([("A", [⟨"init", [], []⟩])], some "boom") :=
  c4_failure_aborts_run execBoom none cfgA4 [cfgB4] [⟨"init", [], []⟩]
    "boom" rfl rfl

theorem range_succ_shift {α : Type} (F : Nat → α) (g n : Nat) :
    (List.range (n + 1)).map (fun i => F (g + i)) =
      F g :: (List.range n).map (fun i => F ((g + 1) + i)) := by
  rw [List.range_succ_eq_map, List.map_cons, List.map_map]
  refine congrArg₂ List.cons (by rw [Nat.add_zero]) ?_
  apply List.map_congr_left
  intro i _
  show F (g + (i + 1)) = F ((g + 1) + i)
  congr 1
  omega

/-- C8: placeholder resolution happens once per execution, not once per
CallSpec — each repeat iteration re-invokes the Call Executor, which fully
re-resolves the accounts map and argument list, so a `new:` placeholder
draws a fresh keypair from the supply on every iteration and the generated
keys are pairwise distinct across iterations. -/
theorem c8_repeat_re_resolution (env : ChainEnv) (programId : Addr)
    (eventOf : String → Option Event) (fn k s : String) (tx : Option ParsedTx)
    (hparse : env.parsePubkey s = none)
    (hnew : jsStartsWith s "new:" = true)
    (hk : jsEndsWith k "_keypair" = false) :
    ∀ g n,
    (runRepeatExec env programId eventOf fn [(k, JsonVal.str s)] [] tx g n =
      .ok ((List.range n).map (fun i =>
        ({ functionName := fn,
           resolvedAccounts := [(k, Resolved.pubkey (genPubkey (g + i))),
                                (k ++ "_keypair", Resolved.keypair (g + i))],
           processedArgs := [],
           signers := [Resolved.keypair (g + i)],
           events := parseLogs eventOf (logsOf tx) } : ExecResult)), g + n)) ∧
    (∀ i j, i < n → j < n → i ≠ j → genPubkey (g + i) ≠ genPubkey (g + j)) := by
  intro g n
  constructor
  · induction n generalizing g with
    | zero => simp [runRepeatExec]
    | succ n ih =>
      simp only [runRepeatExec,
        executeFunction_new_single env programId eventOf fn k s tx g hparse hnew hk,
        except_bind_ok]
      rw [ih (g + 1)]
      rw [range_succ_shift (fun m =>
        ({ functionName := fn,
           resolvedAccounts := [(k, Resolved.pubkey (genPubkey m)),
                                (k ++ "_keypair", Resolved.keypair m)],
           processedArgs := [],
           signers := [Resolved.keypair m],
           events := parseLogs eventOf (logsOf tx) } : ExecResult)) g n]
      show Except.ok _ = Except.ok _
      congr 2
      omega
  · intro i j _ _ hne
    simp only [genPubkey, ne_eq, List.cons.injEq, and_true]
    omega

/-- Witness for C8: two repeat iterations of a `new:` CallSpec produce two
distinct freshly generated keypairs. -/
theorem c8_witness :
    runRepeatExec witEnv [3] some "mint" [("vault", JsonVal.str "new:v")] []
        none 0 2 =
      .ok ([{ functionName := "mint",
              resolvedAccounts := [("vault", Resolved.pubkey (genPubkey 0)),
                                   ("vault_keypair", Resolved.keypair 0)],
              processedArgs := [],
              signers := [Resolved.keypair 0],
              events := [] },
            { functionName := "mint",
              resolvedAccounts := [("vault", Resolved.pubkey (genPubkey 1)),
                                   ("vault_keypair", Resolved.keypair 1)],
              processedArgs := [],
              signers := [Resolved.keypair 1],
              events := [] }], 2) ∧
    genPubkey 0 ≠ genPubkey 1 := by
  obtain ⟨heq, hdist⟩ := c8_repeat_re_resolution witEnv [3] some "mint" "vault"
    "new:v" none rfl (by decide) (by decide) 0 2
  constructor
  · rw [heq]
    rfl
  · have h := hdist 0 1 (by decide) (by decide) (by decide)
    simpa using h
